import Mathlib

/-!
Shallow embedding of `src/app.py`, a single-file Streamlit application that
streams an AI chat answer and renders it to a PDF.

Python strings are modelled as `List Char`.  The `str` methods used by the
source (`split`, `strip`, `startswith`, `replace`) and the two regular
expression operations inside `create_pdf` are modelled character by
character, following CPython's documented semantics (leftmost,
non-overlapping matches, greedy or lazy exactly as the pattern demands).
The Markdown-to-HTML conversion (`markdown.Markdown(...).convert`) and the
chat endpoint are external collaborators and appear as parameters.
-/

/-- The double-quote character (codepoint 34), named so that string and
character literals in this file stay free of embedded quote characters. -/
def quoteChar : Char := Char.ofNat 34

/-- Whitespace as recognised by Python's `str.strip()` (ASCII part:
space, tab, newline, carriage return, vertical tab, form feed). -/
def isPySpace (c : Char) : Bool :=
  c == ' ' || c == '\t' || c == '\n' || c == '\r' || c == Char.ofNat 11 || c == Char.ofNat 12

/-- Python `s.strip()`: drop leading and trailing whitespace. -/
def pyStrip (l : List Char) : List Char :=
  ((l.dropWhile isPySpace).reverse.dropWhile isPySpace).reverse

/-- Whether `pat` occurs as a contiguous substring of the list
(`pat in s` in Python). -/
def containsSub (pat : List Char) : List Char → Bool
  | [] => pat.isEmpty
  | c :: rest => pat.isPrefixOf (c :: rest) || containsSub pat rest

/-- Fuelled worker for Python `str.split(sep)` with a non-empty separator:
scan left to right, cut at each (non-overlapping, leftmost) occurrence of
`sep`.  The fuel is always instantiated with the length of the scanned
list, which bounds the number of steps. -/
def pySplitF (sep : List Char) : Nat → List Char → List Char → List (List Char)
  | 0, acc, l => [acc ++ l]
  | _ + 1, acc, [] => [acc]
  | n + 1, acc, c :: rest =>
    if sep.isPrefixOf (c :: rest) then
      acc :: pySplitF sep n [] ((c :: rest).drop sep.length)
    else
      pySplitF sep n (acc ++ [c]) rest

/-- Python `l.split(sep)` for a non-empty separator `sep`. -/
def pySplit (sep l : List Char) : List (List Char) :=
  pySplitF sep l.length [] l

/-- Fuelled worker for Python `str.replace(pat, rep)` with non-empty `pat`:
replace every non-overlapping, leftmost occurrence. -/
def pyReplaceF (pat rep : List Char) : Nat → List Char → List Char
  | 0, l => l
  | _ + 1, [] => []
  | n + 1, c :: rest =>
    if pat.isPrefixOf (c :: rest) then
      rep ++ pyReplaceF pat rep n ((c :: rest).drop pat.length)
    else
      c :: pyReplaceF pat rep n rest

/-- Python `l.replace(pat, rep)` for a non-empty pattern `pat`. -/
def pyReplace (l pat rep : List Char) : List Char :=
  pyReplaceF pat rep l.length l

/-! ### The Markdown Normalizer

`app.py` line 96:
`html = re.sub(r'<(div|span) class="[^"]+">', r"<\1>", html)`.

At a given position the pattern matches exactly when the text reads
`<div class="` or `<span class="`, followed by a non-empty run of
non-quote characters, followed by `">`; the character class `[^"]` can
never match a quote, so backtracking cannot produce any other match.
`re.sub` rewrites the leftmost match and resumes scanning right after it. -/

/-- The literal `<div class="` (the quote written via `quoteChar`). -/
def divOpen : List Char := "<div class=".data ++ [quoteChar]

/-- The literal `<span class="`. -/
def spanOpen : List Char := "<span class=".data ++ [quoteChar]

/-- After one of the two openers matched, try to match `[^"]+">`:
a non-empty run of non-quote characters closed by a quote and `>`.
Returns the replacement tag together with the text after the match. -/
def tryMatchAfter (tag rest : List Char) : Option (List Char × List Char) :=
  if (rest.takeWhile (fun c => c != quoteChar)).isEmpty then none
  else
    match rest.dropWhile (fun c => c != quoteChar) with
    | c1 :: c2 :: rest3 =>
      if c1 == quoteChar && c2 == '>' then some (tag, rest3) else none
    | _ => none

/-- Try to match the whole pattern `<(div|span) class="[^"]+">` at the
head of `l`.  On success return the captured tag name and the text
following the match. -/
def tryMatchTag (l : List Char) : Option (List Char × List Char) :=
  if divOpen.isPrefixOf l then tryMatchAfter "div".data (l.drop 12)
  else if spanOpen.isPrefixOf l then tryMatchAfter "span".data (l.drop 13)
  else none

/-- Fuelled worker for the `re.sub` call: leftmost-match scan replacing
each match `<tag class="...">` by `<tag>`. -/
def normF : Nat → List Char → List Char
  | 0, l => l
  | _ + 1, [] => []
  | n + 1, c :: rest =>
    match tryMatchTag (c :: rest) with
    | some (tag, rest2) => ('<' :: tag) ++ '>' :: normF n rest2
    | none => c :: normF n rest

/-- The Markdown Normalizer of `app.py` line 96. -/
def normalizeHtml (l : List Char) : List Char :=
  normF l.length l

/-! ### The Document Renderer (`create_pdf`, `app.py` lines 39-117) -/

/-- The split token of `app.py` line 99. -/
def pythonFence : List Char := "```python".data

/-- The closing fence `` ``` `` of the dead-code regular expression on
line 102. -/
def closeFence : List Char := "```".data

/-- Worker for the lazy part `(.*?)``` ` of `re.findall` on line 102:
capture up to the first closing fence. -/
def findCloseF : Nat → List Char → Option (List Char × List Char)
  | 0, _ => none
  | _ + 1, [] => none
  | n + 1, c :: rest =>
    if closeFence.isPrefixOf (c :: rest) then some ([], (c :: rest).drop 3)
    else
      match findCloseF n rest with
      | some (cap, r) => some (c :: cap, r)
      | none => none

/-- Fuelled worker for
`re.findall(r'```python(.*?)```', part, re.DOTALL)` (line 102). -/
def findAllCodeF : Nat → List Char → List (List Char)
  | 0, _ => []
  | _ + 1, [] => []
  | n + 1, c :: rest =>
    if pythonFence.isPrefixOf (c :: rest) then
      match findCloseF ((c :: rest).drop 9).length ((c :: rest).drop 9) with
      | some (cap, r) => cap :: findAllCodeF n r
      | none => []
    else findAllCodeF n rest

/-- `re.findall(r'```python(.*?)```', l, re.DOTALL)`. -/
def findAllCode (l : List Char) : List (List Char) :=
  findAllCodeF l.length l

/-- A content block appended to `story` in `create_pdf`: the title
paragraph, a body paragraph (`normal_style`), a `Spacer`, or a code
paragraph (`code_style`). -/
inductive Block
  | title (text : List Char)
  | para (text : List Char)
  | spacer (width height : Nat)
  | codeBlock (text : List Char)
  deriving DecidableEq

/-- Whether a block is a code block (`code_style` paragraph). -/
def Block.isCode : Block → Bool
  | Block.codeBlock _ => true
  | _ => false

/-- The paragraph-closing split token of line 106. -/
def pClose : List Char := "</p>".data

/-- Lines 107-113: one fragment of `part.split('</p>')` becomes, when its
stripped form is non-empty, one `Paragraph` (with `<p>` markers removed
and bold/emphasis rewritten) followed by `Spacer(1, 12)`. -/
def renderParagraph (p : List Char) : List Block :=
  if (pyStrip p).isEmpty then []
  else
    let c0 := pyStrip (pyReplace p "<p>".data [])
    let c1 := pyReplace (pyReplace c0 "<strong>".data "<b>".data) "</strong>".data "</b>".data
    let c2 := pyReplace (pyReplace c1 "<em>".data "<i>".data) "</em>".data "</i>".data
    [Block.para c2, Block.spacer 1 12]

/-- Lines 100-113: one element of `html.split('```python')` is rendered
either by the code branch (line 101-104) or by the prose branch
(lines 105-113). -/
def renderPart (part : List Char) : List Block :=
  if pythonFence.isPrefixOf (pyStrip part) then
    (findAllCode part).map fun code => Block.codeBlock (pyStrip code)
  else
    (pySplit pClose part).flatMap renderParagraph

/-- The prose-only rendering of an HTML string: one `Paragraph` block per
non-empty `</p>`-fragment, each followed by `Spacer(1, 12)`, in source
order.  This is the rendering the specification describes for input
without fenced code blocks. -/
def proseBlocks (html : List Char) : List Block :=
  (pySplit pClose html).flatMap renderParagraph

/-- `create_pdf` (lines 39-117), as the sequence of content blocks built
into `story` and laid out in order.  The Markdown-to-HTML conversion of
line 92-93 is the external parameter `mdConvert`. -/
def create_pdf (mdConvert : List Char → List Char) (title text_content : List Char) : List Block :=
  Block.title title ::
    (pySplit pythonFence (normalizeHtml (mdConvert text_content))).flatMap renderPart

/-! ### The Streaming Response Collector (`generate_ai_response`,
`app.py` lines 119-145) -/

/-- One streamed chunk: either it carries text (`chunk.text is not None`,
possibly empty), or its text is `None` and it carries an error entry
(`'error' in chunk`), or neither (the loop body then does nothing). -/
inductive Chunk
  | text (s : List Char)
  | error (e : List Char)
  | other
  deriving DecidableEq

/-- Observable outcome of `generate_ai_response`: the returned value
(`none` models Python `None`), the successive cumulative strings passed
to `response_container.write`, the error-banner messages, and how many
chunks were consumed from the stream. -/
structure CollectResult where
  ret : Option (List Char)
  writes : List (List Char)
  errors : List (List Char)
  consumed : Nat
  deriving DecidableEq

/-- The `for chunk in completion` loop of lines 134-141, followed by
`return model_response`.  On an error chunk the loop `break`s after
showing the banner and the accumulated text is returned. -/
def consumeStream : List Chunk → List Char → List (List Char) → Nat → CollectResult
  | [], acc, ws, n => ⟨some acc, ws, [], n⟩
  | Chunk.text s :: rest, acc, ws, n =>
    consumeStream rest (acc ++ s) (ws ++ [acc ++ s]) (n + 1)
  | Chunk.error e :: _, acc, ws, n =>
    ⟨some acc, ws, ["Error occurred: ".data ++ e], n + 1⟩
  | Chunk.other :: rest, acc, ws, n => consumeStream rest acc ws (n + 1)

/-- `generate_ai_response` (lines 119-145).  The argument is the result of
`chat.send_message(prompt, stream=True)`: either the chunk sequence, or
the message of a raised transport-level exception, which the
`try`/`except` of lines 128-145 turns into an error banner and `None`. -/
def generate_ai_response : Except (List Char) (List Chunk) → CollectResult
  | Except.error e => ⟨none, [], ["An error occurred: ".data ++ e], 0⟩
  | Except.ok chunks => consumeStream chunks [] [] 0

/-- Specification-side description of the per-chunk callback trace: one
cumulative value per text-carrying chunk (empty text included), stopping
at the first error chunk. -/
def writesSpec (acc : List Char) : List Chunk → List (List Char)
  | [] => []
  | Chunk.text s :: rest => (acc ++ s) :: writesSpec (acc ++ s) rest
  | Chunk.error _ :: _ => []
  | Chunk.other :: rest => writesSpec acc rest

/-! ### The button handler (`app.py` lines 174-201) -/

/-- Line 179: `f"Programming Task: {selected_task}\nDetails: {task_details}"`. -/
def composePrompt (selected_task task_details : List Char) : List Char :=
  "Programming Task: ".data ++ selected_task ++ "\nDetails: ".data ++ task_details

/-- The `st.button("Get Response")` handler (lines 174-201), reduced to
its PDF-producing effect: `some story` when a PDF is built and offered
for download, `none` when only a warning is shown.  `if response:` is
Python truthiness: `None` and the empty string are falsy. -/
def handleGetResponse (mdConvert : List Char → List Char)
    (selected_task task_details : List Char)
    (call : List Char → Except (List Char) (List Chunk)) : Option (List Block) :=
  if task_details.isEmpty then none
  else
    match (generate_ai_response (call (composePrompt selected_task task_details))).ret with
    | some resp =>
      if resp.isEmpty then none else some (create_pdf mdConvert selected_task resp)
    | none => none

/-- All suffixes of a list, the scanned positions of a leftmost-match
search. -/
def allTails : List Char → List (List Char)
  | [] => [[]]
  | c :: rest => (c :: rest) :: allTails rest

/-! ### Toolkit: Boolean prefix tests and substring occurrence -/

theorem isPrefixOf_nil_eq (p : List Char) (h : p.isPrefixOf ([] : List Char) = true) :
    p = [] := by
  cases p with
  | nil => rfl
  | cons a as => simp [List.isPrefixOf] at h

theorem isPrefixOf_append_ext (p : List Char) :
    ∀ l t, p.isPrefixOf l = true → p.isPrefixOf (l ++ t) = true := by
  induction p with
  | nil => intro l t _; simp
  | cons a as ih =>
    intro l t h
    cases l with
    | nil => simp [List.isPrefixOf] at h
    | cons b bs =>
      rw [List.cons_append]
      rw [List.isPrefixOf_cons₂] at h ⊢
      rcases Bool.and_eq_true_iff.mp h with ⟨h1, h2⟩
      exact Bool.and_eq_true_iff.mpr ⟨h1, ih bs t h2⟩

theorem isPrefixOf_self_app (p t : List Char) : p.isPrefixOf (p ++ t) = true := by
  induction p with
  | nil => simp
  | cons a as ih => simp [List.isPrefixOf_cons₂, ih]

theorem isPrefixOf_take_lift (p : List Char) :
    ∀ l m, p.isPrefixOf (l.take m) = true → p.isPrefixOf l = true := by
  induction p with
  | nil => intro l m _; simp
  | cons a as ih =>
    intro l m h
    cases l with
    | nil => simp at h
    | cons b bs =>
      cases m with
      | zero => simp [List.isPrefixOf] at h
      | succ m' =>
        rw [List.take_succ_cons, List.isPrefixOf_cons₂] at h
        rcases Bool.and_eq_true_iff.mp h with ⟨h1, h2⟩
        exact Bool.and_eq_true_iff.mpr ⟨h1, ih bs m' h2⟩

theorem length_le_of_isPrefixOf (p : List Char) :
    ∀ l, p.isPrefixOf l = true → p.length ≤ l.length := by
  induction p with
  | nil => intro l _; simp
  | cons a as ih =>
    intro l h
    cases l with
    | nil => simp [List.isPrefixOf] at h
    | cons b bs =>
      rw [List.isPrefixOf_cons₂] at h
      have := ih bs (Bool.and_eq_true_iff.mp h).2
      simpa [List.length_cons] using Nat.succ_le_succ this

theorem containsSub_iff_drop (p : List Char) :
    ∀ l, containsSub p l = true ↔ ∃ i, p.isPrefixOf (l.drop i) = true := by
  intro l
  induction l with
  | nil =>
    constructor
    · intro h
      cases p with
      | nil => exact ⟨0, by simp⟩
      | cons a as => simp [containsSub] at h
    · rintro ⟨i, hp⟩
      rw [List.drop_nil] at hp
      rw [isPrefixOf_nil_eq p hp]
      rfl
  | cons c rest ih =>
    constructor
    · intro h
      rcases Bool.or_eq_true_iff.mp h with h1 | h2
      · exact ⟨0, by simpa using h1⟩
      · rcases ih.mp h2 with ⟨i, hp⟩
        exact ⟨i + 1, by simpa using hp⟩
    · rintro ⟨i, hp⟩
      cases i with
      | zero =>
        rw [List.drop_zero] at hp
        exact Bool.or_eq_true_iff.mpr (Or.inl hp)
      | succ j =>
        rw [List.drop_succ_cons] at hp
        exact Bool.or_eq_true_iff.mpr (Or.inr (ih.mpr ⟨j, hp⟩))

theorem containsSub_of_head (p l : List Char) (h : p.isPrefixOf l = true) :
    containsSub p l = true :=
  (containsSub_iff_drop p l).mpr ⟨0, by simpa using h⟩

theorem containsSub_take_lift (p : List Char) :
    ∀ l m, containsSub p (l.take m) = true → containsSub p l = true := by
  intro l m h
  rcases (containsSub_iff_drop p _).mp h with ⟨i, hp⟩
  rcases Nat.lt_or_ge i m with hlt | hge
  · have : (l.take m).drop i = (l.drop i).take (m - i) := by
      rw [List.drop_take]
    rw [this] at hp
    exact (containsSub_iff_drop p l).mpr ⟨i, isPrefixOf_take_lift p _ _ hp⟩
  · have : (l.take m).drop i = [] := by
      apply List.drop_of_length_le
      calc (l.take m).length ≤ m := by simp [List.length_take_le]
        _ ≤ i := hge
    rw [this] at hp
    have hpn := isPrefixOf_nil_eq p hp
    subst hpn
    cases l with
    | nil => rfl
    | cons a as => simp [containsSub, List.isPrefixOf]

theorem containsSub_drop_lift (p : List Char) :
    ∀ m l, containsSub p (l.drop m) = true → containsSub p l = true := by
  intro m
  induction m with
  | zero => intro l h; simpa using h
  | succ j ih =>
    intro l h
    cases l with
    | nil => simpa using h
    | cons c rest =>
      rw [List.drop_succ_cons] at h
      have := ih rest h
      simp [containsSub, this]

/-! ### No split part contains the separator

`str.split(sep)` cuts at every leftmost occurrence of `sep`, so no
element of the result can contain `sep` as a substring.  The invariant
carried below says: at every position already accumulated into `acc`,
the separator was checked not to start (with respect to the text that
followed that position, which is `acc.drop i ++ l`). -/

theorem drop_append_single (c : Char) :
    ∀ (acc : List Char) (i : Nat), i ≤ acc.length →
      (acc ++ [c]).drop i = acc.drop i ++ [c] := by
  intro acc
  induction acc with
  | nil =>
    intro i hi
    have hz : i = 0 := Nat.le_zero.mp (by simpa using hi)
    subst hz
    simp
  | cons a acc' ih =>
    intro i hi
    cases i with
    | zero => simp
    | succ j =>
      rw [List.cons_append, List.drop_succ_cons, List.drop_succ_cons]
      exact ih j (by simpa using hi)

theorem drop_length_append (a b : List Char) : (a ++ b).drop a.length = b := by
  induction a with
  | nil => simp
  | cons x a' ih => simp [ih]

theorem no_sub_of_inv (sep acc l : List Char) (hs : sep ≠ [])
    (inv : ∀ i, i < acc.length → sep.isPrefixOf (acc.drop i ++ l) = false) :
    containsSub sep acc = false := by
  by_contra hcon
  have hc : containsSub sep acc = true := by
    cases hb : containsSub sep acc with
    | false => exact absurd hb hcon
    | true => rfl
  rcases (containsSub_iff_drop sep acc).mp hc with ⟨i, hp⟩
  rcases Nat.lt_or_ge i acc.length with hlt | hge
  · have := isPrefixOf_append_ext sep _ l hp
    rw [inv i hlt] at this
    exact Bool.false_ne_true this
  · rw [List.drop_of_length_le hge] at hp
    exact hs (isPrefixOf_nil_eq sep hp)

theorem pySplitF_no_sub (sep : List Char) (hs : sep ≠ []) :
    ∀ n acc l, l.length ≤ n →
      (∀ i, i < acc.length → sep.isPrefixOf (acc.drop i ++ l) = false) →
      ∀ p, p ∈ pySplitF sep n acc l → containsSub sep p = false := by
  intro n
  induction n with
  | zero =>
    intro acc l hlen inv p hp
    have hl : l = [] := List.length_eq_zero.mp (Nat.le_zero.mp hlen)
    subst hl
    rw [pySplitF] at hp
    rw [List.mem_singleton] at hp
    subst hp
    rw [List.append_nil]
    exact no_sub_of_inv sep acc [] hs inv
  | succ n ih =>
    intro acc l hlen inv p hp
    cases l with
    | nil =>
      rw [pySplitF, List.mem_singleton] at hp
      subst hp
      exact no_sub_of_inv sep p [] hs (by simpa using inv)
    | cons c rest =>
      rw [pySplitF] at hp
      by_cases hb : sep.isPrefixOf (c :: rest) = true
      · rw [if_pos hb] at hp
        rcases List.mem_cons.mp hp with hpa | hpr
        · subst hpa
          exact no_sub_of_inv sep p (c :: rest) hs inv
        · have hsl : 1 ≤ sep.length :=
            Nat.succ_le_of_lt (List.length_pos.mpr hs)
          refine ih [] ((c :: rest).drop sep.length) ?_ ?_ p hpr
          · rw [List.length_drop]
            simp only [List.length_cons] at hlen ⊢
            omega
          · intro i hi
            simp at hi
      · rw [if_neg hb] at hp
        have hb' : sep.isPrefixOf (c :: rest) = false := by
          cases hx : sep.isPrefixOf (c :: rest) with
          | false => rfl
          | true => exact absurd hx hb
        refine ih (acc ++ [c]) rest ?_ ?_ p hp
        · simp only [List.length_cons] at hlen
          omega
        · intro i hi
          rw [List.length_append, List.length_singleton] at hi
          rcases Nat.lt_or_ge i acc.length with hlt | hge
          · rw [drop_append_single c acc i (Nat.le_of_lt hlt), List.append_assoc,
              List.singleton_append]
            exact inv i hlt
          · have hieq : i = acc.length := by omega
            subst hieq
            rw [drop_length_append, List.singleton_append]
            exact hb'

theorem pySplit_no_sub (sep l : List Char) (hs : sep ≠ []) :
    ∀ p, p ∈ pySplit sep l → containsSub sep p = false := by
  intro p hp
  refine pySplitF_no_sub sep hs l.length [] l (Nat.le_refl _) ?_ p hp
  intro i hi
  simp at hi

theorem pySplitF_single (sep : List Char) :
    ∀ n acc l, l.length ≤ n → containsSub sep (acc ++ l) = false →
      pySplitF sep n acc l = [acc ++ l] := by
  intro n
  induction n with
  | zero => intro acc l _ _; rw [pySplitF]
  | succ n ih =>
    intro acc l hlen hno
    cases l with
    | nil => rw [pySplitF, List.append_nil]
    | cons c rest =>
      have hb : sep.isPrefixOf (c :: rest) = false := by
        cases hx : sep.isPrefixOf (c :: rest) with
        | false => rfl
        | true =>
          have : containsSub sep (acc ++ c :: rest) = true := by
            refine (containsSub_iff_drop sep _).mpr ⟨acc.length, ?_⟩
            rw [drop_length_append]
            exact hx
          rw [hno] at this
          exact absurd this Bool.false_ne_true
      rw [pySplitF, if_neg (by simp [hb])]
      have := ih (acc ++ [c]) rest (by simp only [List.length_cons] at hlen; omega)
        (by rw [List.append_assoc, List.singleton_append]; exact hno)
      rw [this, List.append_assoc, List.singleton_append]

theorem pySplit_single (sep l : List Char) (hno : containsSub sep l = false) :
    pySplit sep l = [l] := by
  have := pySplitF_single sep l.length [] l (Nat.le_refl _) (by simpa using hno)
  simpa using this

/-! ### `strip` only removes characters, so a prefix of the stripped
text occurs inside the original text -/

theorem dropWhile_eq_drop_ex (q : Char → Bool) :
    ∀ l : List Char, ∃ i, l.dropWhile q = l.drop i := by
  intro l
  induction l with
  | nil => exact ⟨0, rfl⟩
  | cons c rest ih =>
    cases hq : q c with
    | true =>
      rcases ih with ⟨i, hi⟩
      exact ⟨i + 1, by simp [List.dropWhile_cons, hq, hi]⟩
    | false => exact ⟨0, by simp [List.dropWhile_cons, hq]⟩

theorem rev_drop_rev_app (x : List Char) (j : Nat) :
    (x.reverse.drop j).reverse ++ (x.reverse.take j).reverse = x := by
  calc (x.reverse.drop j).reverse ++ (x.reverse.take j).reverse
      = (x.reverse.take j ++ x.reverse.drop j).reverse := by
        rw [List.reverse_append]
    _ = x.reverse.reverse := by rw [List.take_append_drop]
    _ = x := List.reverse_reverse x

theorem strip_no_head (p l : List Char) (hno : containsSub p l = false) :
    p.isPrefixOf (pyStrip l) = false := by
  cases hb : p.isPrefixOf (pyStrip l) with
  | false => rfl
  | true =>
    exfalso
    rcases dropWhile_eq_drop_ex isPySpace l with ⟨i, hi⟩
    rcases dropWhile_eq_drop_ex isPySpace (l.drop i).reverse with ⟨j, hj⟩
    have hstrip : pyStrip l = ((l.drop i).reverse.drop j).reverse := by
      rw [pyStrip, hi, hj]
    rw [hstrip] at hb
    have hb2 : p.isPrefixOf
        (((l.drop i).reverse.drop j).reverse ++ ((l.drop i).reverse.take j).reverse) = true :=
      isPrefixOf_append_ext p _ _ hb
    rw [rev_drop_rev_app] at hb2
    have : containsSub p l = true :=
      containsSub_drop_lift p i l (containsSub_of_head p _ hb2)
    rw [hno] at this
    exact Bool.false_ne_true this

/-! ### The code branch of `create_pdf` is dead -/

theorem renderParagraph_no_code (p : List Char) :
    ∀ b, b ∈ renderParagraph p → b.isCode = false := by
  intro b hb
  rw [renderParagraph] at hb
  by_cases hc : (pyStrip p).isEmpty = true
  · rw [if_pos hc] at hb
    simp at hb
  · rw [if_neg hc] at hb
    simp only [List.mem_cons, List.mem_singleton] at hb
    rcases hb with h | h | h
    · subst h; rfl
    · subst h; rfl
    · simp at h

theorem renderPart_prose (part : List Char)
    (hno : containsSub pythonFence part = false) :
    renderPart part = (pySplit pClose part).flatMap renderParagraph := by
  rw [renderPart, if_neg]
  rw [strip_no_head pythonFence part hno]
  simp

theorem renderPart_no_code (part : List Char)
    (hno : containsSub pythonFence part = false) :
    ∀ b, b ∈ renderPart part → b.isCode = false := by
  intro b hb
  rw [renderPart_prose part hno] at hb
  rcases List.mem_flatMap.mp hb with ⟨p, _, hbp⟩
  exact renderParagraph_no_code p b hbp

theorem create_pdf_no_code (mdConvert : List Char → List Char)
    (title body : List Char) :
    ∀ b, b ∈ create_pdf mdConvert title body → b.isCode = false := by
  intro b hb
  rw [create_pdf] at hb
  rcases List.mem_cons.mp hb with h | h
  · subst h; rfl
  · rcases List.mem_flatMap.mp h with ⟨part, hpart, hbp⟩
    have hno : containsSub pythonFence part = false :=
      pySplit_no_sub pythonFence (normalizeHtml (mdConvert body)) (by decide) part hpart
    exact renderPart_no_code part hno b hbp

/-! ### Collector lemmas -/

theorem consumeStream_writes_eq :
    ∀ (chunks : List Chunk) (acc : List Char) (ws : List (List Char)) (n : Nat),
      (consumeStream chunks acc ws n).writes = ws ++ writesSpec acc chunks := by
  intro chunks
  induction chunks with
  | nil => intro acc ws n; simp [consumeStream, writesSpec]
  | cons c rest ih =>
    intro acc ws n
    cases c with
    | text s =>
      rw [consumeStream, writesSpec, ih]
      simp
    | error e => simp [consumeStream, writesSpec]
    | other => rw [consumeStream, writesSpec, ih]

/-! ### Claims about the Streaming Response Collector and the handler -/

/-- C7: on the chunk sequence `["Hel", "lo"]` with no error chunks, the
collector returns `"Hello"` and invokes the per-chunk callback exactly
twice, with cumulative values `"Hel"` then `"Hello"`. -/
theorem claim_C7_hello_trace :
    generate_ai_response (Except.ok [Chunk.text "Hel".data, Chunk.text "lo".data]) =
      ⟨some "Hello".data, ["Hel".data, "Hello".data], [], 2⟩ := by
  rfl

/-- C3, counterexample to the claim as stated: when the second chunk is
an error indicator the function `break`s (it consumes exactly two
chunks) but then falls through to `return model_response`, so the
returned value is the accumulated text `"Hel"` — not a failure signal,
and the accumulated text is not discarded. -/
theorem claim_C3_counterexample :
    (generate_ai_response (Except.ok
        [Chunk.text "Hel".data, Chunk.error "boom".data, Chunk.text "lo".data])).ret
        = some "Hel".data ∧
      (generate_ai_response (Except.ok
        [Chunk.text "Hel".data, Chunk.error "boom".data, Chunk.text "lo".data])).consumed
        = 2 := by
  exact ⟨rfl, rfl⟩

/-- C3, amended: for every chunk sequence whose first element carries
text `s` and whose second element carries an error indicator `e`, the
collector stops consuming after the error element (exactly two chunks
are consumed, whatever follows), shows an error banner, and returns the
text accumulated from the earlier chunk — the return value is `s`, not
a failure signal. -/
theorem claim_C3_amended_stops_but_returns_text (s e : List Char) (rest : List Chunk) :
    generate_ai_response (Except.ok (Chunk.text s :: Chunk.error e :: rest)) =
      ⟨some s, [s], ["Error occurred: ".data ++ e], 2⟩ := by
  have h : generate_ai_response (Except.ok (Chunk.text s :: Chunk.error e :: rest)) =
      consumeStream (Chunk.text s :: Chunk.error e :: rest) [] [] 0 := rfl
  rw [h, consumeStream, consumeStream]
  simp

/-- C10: the collector invokes the per-chunk callback, with the
cumulative accumulator value, for every chunk whose text is non-`None`
— empty-string text included, which yields a callback invocation with
the accumulator unchanged (the middle write below repeats `"a"`). -/
theorem claim_C10_callback_on_every_text_chunk :
    (∀ chunks : List Chunk,
        (generate_ai_response (Except.ok chunks)).writes = writesSpec [] chunks) ∧
      (generate_ai_response (Except.ok
          [Chunk.text "a".data, Chunk.text [], Chunk.text "b".data])).writes
        = ["a".data, "a".data, "ab".data] := by
  constructor
  · intro chunks
    have h : generate_ai_response (Except.ok chunks) = consumeStream chunks [] [] 0 := rfl
    rw [h, consumeStream_writes_eq]
    simp
  · rfl

/-- C8: when the chat call raises a transport-level fault, the
`try`/`except` of `generate_ai_response` turns it into an error banner
and a `None` return instead of propagating, and the button handler then
takes its falsy branch, so no PDF artifact is generated. -/
theorem claim_C8_transport_fault_no_pdf (e : List Char) :
    (generate_ai_response (Except.error e)).ret = none ∧
      (generate_ai_response (Except.error e)).errors
        = ["An error occurred: ".data ++ e] ∧
      ∀ (mdConvert : List Char → List Char) (selected_task task_details : List Char),
        handleGetResponse mdConvert selected_task task_details
          (fun _ => Except.error e) = none := by
  refine ⟨rfl, rfl, ?_⟩
  intro mdConvert selected_task task_details
  cases hc : task_details.isEmpty <;>
    simp [handleGetResponse, hc, generate_ai_response]

/-! ### Claims about the dead code branch of `create_pdf` -/

/-- C2: for every Markdown conversion and every input, each element of
`html.split('```python')` fails the `startswith('```python')` test
(after `strip`), because `str.split` removes every occurrence of the
separator; consequently `create_pdf` never emits a code block. -/
theorem claim_C2_code_branch_unreachable
    (mdConvert : List Char → List Char) (title body : List Char) :
    ((pySplit pythonFence (normalizeHtml (mdConvert body))).all
        (fun part => !(pythonFence.isPrefixOf (pyStrip part)))) = true ∧
      ((create_pdf mdConvert title body).all (fun b => !(b.isCode))) = true := by
  constructor
  · rw [List.all_eq_true]
    intro part hpart
    have hno := pySplit_no_sub pythonFence (normalizeHtml (mdConvert body))
      (by decide) part hpart
    simp [strip_no_head pythonFence part hno]
  · rw [List.all_eq_true]
    intro b hb
    simp [create_pdf_no_code mdConvert title body b hb]

/-- C1: the specified behaviour — exactly one code block for the body
`"```python\nprint(1)\n```"` — does not hold on the code: whatever the
Markdown conversion produces, the generated document contains zero code
blocks, because the branch that would emit them is unreachable. -/
theorem claim_C1_fenced_body_zero_codeBlocks
    (mdConvert : List Char → List Char) (title : List Char) :
    (create_pdf mdConvert title "```python\nprint(1)\n```".data).countP Block.isCode
      = 0 := by
  rw [List.countP_eq_zero]
  intro b hb
  simp [create_pdf_no_code mdConvert title _ b hb]

/-! ### Normalizer lemmas -/

theorem dropWhile_length_le (q : Char → Bool) :
    ∀ l : List Char, (l.dropWhile q).length ≤ l.length := by
  intro l
  induction l with
  | nil => simp
  | cons c rest ih =>
    cases hq : q c with
    | true =>
      rw [List.dropWhile_cons_of_pos hq]
      exact Nat.le_trans ih (by simp)
    | false => rw [List.dropWhile_cons_of_neg (by simp [hq])]

theorem tryMatchAfter_some_shape (tag rest t r3 : List Char)
    (h : tryMatchAfter tag rest = some (t, r3)) :
    ∃ c1 c2, rest.dropWhile (fun c => c != quoteChar) = c1 :: c2 :: r3 := by
  rw [tryMatchAfter] at h
  split at h
  · exact absurd h (by simp)
  · split at h
    next c1 c2 rest3 heq =>
      split at h
      · have h1 : rest3 = r3 := by
          have := (Option.some.injEq _ _).mp h
          exact (Prod.mk.injEq _ _ _ _).mp this |>.2
        exact ⟨c1, c2, by rw [heq, h1]⟩
      · exact absurd h (by simp)
    next => exact absurd h (by simp)

theorem tryMatchTag_some_len (l tag r : List Char) (h : tryMatchTag l = some (tag, r)) :
    r.length < l.length := by
  by_cases hd : divOpen.isPrefixOf l = true
  · rw [tryMatchTag, if_pos hd] at h
    obtain ⟨c1, c2, hdw⟩ := tryMatchAfter_some_shape _ _ _ _ h
    have h1 := dropWhile_length_le (fun c => c != quoteChar) (l.drop 12)
    rw [hdw] at h1
    have h2 : 12 ≤ l.length := by
      have h3 := length_le_of_isPrefixOf divOpen l hd
      have h4 : divOpen.length = 12 := rfl
      omega
    rw [List.length_cons, List.length_cons, List.length_drop] at h1
    omega
  · by_cases hsp : spanOpen.isPrefixOf l = true
    · rw [tryMatchTag, if_neg (by simp [hd]), if_pos hsp] at h
      obtain ⟨c1, c2, hdw⟩ := tryMatchAfter_some_shape _ _ _ _ h
      have h1 := dropWhile_length_le (fun c => c != quoteChar) (l.drop 13)
      rw [hdw] at h1
      have h2 : 13 ≤ l.length := by
        have h3 := length_le_of_isPrefixOf spanOpen l hsp
        have h4 : spanOpen.length = 13 := rfl
        omega
      rw [List.length_cons, List.length_cons, List.length_drop] at h1
      omega
    · rw [tryMatchTag, if_neg (by simp [hd]), if_neg (by simp [hsp])] at h
      exact absurd h (by simp)

theorem normF_fuel_irrel :
    ∀ n m l, l.length ≤ n → l.length ≤ m → normF n l = normF m l := by
  intro n
  induction n with
  | zero =>
    intro m l hn _
    have hl : l = [] := List.length_eq_zero.mp (Nat.le_zero.mp hn)
    subst hl
    cases m <;> rfl
  | succ n ih =>
    intro m l hn hm
    cases l with
    | nil => cases m <;> rfl
    | cons c rest =>
      cases m with
      | zero => simp at hm
      | succ m' =>
        rw [normF, normF]
        cases htm : tryMatchTag (c :: rest) with
        | none =>
          simp only [htm]
          rw [ih m' rest (by simp at hn; omega) (by simp at hm; omega)]
        | some pr =>
          obtain ⟨tag, r⟩ := pr
          simp only [htm]
          have hlt := tryMatchTag_some_len _ _ _ htm
          rw [List.length_cons] at hlt
          rw [ih m' r (by simp at hn; omega) (by simp at hm; omega)]

theorem normF_id_of_no_match :
    ∀ n l, l.length ≤ n → (∀ s ∈ allTails l, tryMatchTag s = none) →
      normF n l = l := by
  intro n
  induction n with
  | zero =>
    intro l h _
    have hl : l = [] := List.length_eq_zero.mp (Nat.le_zero.mp h)
    subst hl
    rfl
  | succ n ih =>
    intro l hlen hno
    cases l with
    | nil => rfl
    | cons c rest =>
      have h0 : tryMatchTag (c :: rest) = none := by
        refine hno (c :: rest) ?_
        rw [allTails]
        exact List.mem_cons_self _ _
      rw [normF]
      simp only [h0]
      rw [ih rest (by simp at hlen; omega)]
      intro s hs
      refine hno s ?_
      rw [allTails]
      exact List.mem_cons_of_mem _ hs

theorem normF_step (n : Nat) (l tag r : List Char) (hne : l ≠ [])
    (h : tryMatchTag l = some (tag, r)) :
    normF (n + 1) l = ('<' :: tag) ++ '>' :: normF n r := by
  cases l with
  | nil => exact absurd rfl hne
  | cons c rest =>
    rw [normF]
    simp only [h]

theorem normalizeHtml_step (l tag r : List Char) (h : tryMatchTag l = some (tag, r)) :
    normalizeHtml l = ('<' :: tag) ++ '>' :: normalizeHtml r := by
  have hne : l ≠ [] := by
    intro he
    subst he
    rw [show tryMatchTag [] = none from rfl] at h
    exact absurd h (by simp)
  have hlt := tryMatchTag_some_len l tag r h
  obtain ⟨m, hm⟩ : ∃ m, l.length = m + 1 := by
    cases l with
    | nil => exact absurd rfl hne
    | cons a b => exact ⟨b.length, rfl⟩
  rw [normalizeHtml, hm, normF_step m l tag r hne h, normalizeHtml,
    normF_fuel_irrel m r.length r (by omega) (Nat.le_refl _)]

theorem takeWhile_append_all (q : Char → Bool) :
    ∀ v w : List Char, (∀ c ∈ v, q c = true) →
      (v ++ w).takeWhile q = v ++ w.takeWhile q := by
  intro v
  induction v with
  | nil => intro w _; simp
  | cons a v' ih =>
    intro w h
    have ha : q a = true := h a (List.mem_cons_self _ _)
    rw [List.cons_append, List.takeWhile_cons_of_pos ha, List.cons_append,
      ih w (fun c hc => h c (List.mem_cons_of_mem _ hc))]

theorem dropWhile_append_all (q : Char → Bool) :
    ∀ v w : List Char, (∀ c ∈ v, q c = true) →
      (v ++ w).dropWhile q = w.dropWhile q := by
  intro v
  induction v with
  | nil => intro w _; simp
  | cons a v' ih =>
    intro w h
    have ha : q a = true := h a (List.mem_cons_self _ _)
    rw [List.cons_append, List.dropWhile_cons_of_pos ha,
      ih w (fun c hc => h c (List.mem_cons_of_mem _ hc))]

theorem isEmpty_false_of_ne (v : List Char) (h : v ≠ []) : v.isEmpty = false := by
  cases v with
  | nil => exact absurd rfl h
  | cons a v' => rfl

theorem tryMatchAfter_run (tag v rest : List Char) (hv : v ≠ [])
    (hq : ∀ c ∈ v, c ≠ quoteChar) :
    tryMatchAfter tag (v ++ quoteChar :: '>' :: rest) = some (tag, rest) := by
  have hqv : ∀ c ∈ v, (fun c => c != quoteChar) c = true := by
    intro c hc
    simp [hq c hc]
  have htw : (v ++ quoteChar :: '>' :: rest).takeWhile (fun c => c != quoteChar)
      = v := by
    rw [takeWhile_append_all _ v _ hqv, List.takeWhile_cons_of_neg (by simp),
      List.append_nil]
  have hdw : (v ++ quoteChar :: '>' :: rest).dropWhile (fun c => c != quoteChar)
      = quoteChar :: '>' :: rest := by
    rw [dropWhile_append_all _ v _ hqv, List.dropWhile_cons_of_neg (by simp)]
  rw [tryMatchAfter, htw, if_neg (by simp [isEmpty_false_of_ne v hv]), hdw]
  simp

theorem tryMatchTag_div (v rest : List Char) (hv : v ≠ [])
    (hq : ∀ c ∈ v, c ≠ quoteChar) :
    tryMatchTag (divOpen ++ (v ++ quoteChar :: '>' :: rest))
      = some ("div".data, rest) := by
  rw [tryMatchTag, if_pos (isPrefixOf_self_app divOpen _)]
  have hdrop : (divOpen ++ (v ++ quoteChar :: '>' :: rest)).drop 12
      = v ++ quoteChar :: '>' :: rest := by
    have h12 : divOpen.length = 12 := rfl
    rw [← h12, drop_length_append]
  rw [hdrop, tryMatchAfter_run _ v rest hv hq]

theorem tryMatchTag_span (v rest : List Char) (hv : v ≠ [])
    (hq : ∀ c ∈ v, c ≠ quoteChar) :
    tryMatchTag (spanOpen ++ (v ++ quoteChar :: '>' :: rest))
      = some ("span".data, rest) := by
  have hnd : divOpen.isPrefixOf (spanOpen ++ (v ++ quoteChar :: '>' :: rest))
      = false := rfl
  rw [tryMatchTag, if_neg (by simp [hnd]),
    if_pos (isPrefixOf_self_app spanOpen _)]
  have hdrop : (spanOpen ++ (v ++ quoteChar :: '>' :: rest)).drop 13
      = v ++ quoteChar :: '>' :: rest := by
    have h13 : spanOpen.length = 13 := rfl
    rw [← h13, drop_length_append]
  rw [hdrop, tryMatchAfter_run _ v rest hv hq]

/-! ### Claims about the Markdown Normalizer -/

/-- The string `<div class="A<span class="b">B">`: a class value that
itself contains a div/span-class opening.  One normalizer pass rewrites
only the inner span tag; the second pass then sees a fresh match. -/
def nestedExample : List Char :=
  "<div class=".data ++ [quoteChar] ++ "A<span class=".data ++ [quoteChar] ++
    "b".data ++ [quoteChar] ++ ">B".data ++ [quoteChar] ++ ">".data

/-- The string `<div class="a" id="b">`: a div tag carrying a class
attribute together with a second attribute. -/
def attrExample : List Char :=
  "<div class=".data ++ [quoteChar] ++ "a".data ++ [quoteChar] ++
    " id=".data ++ [quoteChar] ++ "b".data ++ [quoteChar] ++ ">".data

/-- The string `<div class="x">ok`, whose normalized form `<div>ok`
contains no residual pattern occurrence. -/
def cleanExample : List Char :=
  "<div class=".data ++ [quoteChar] ++ "x".data ++ [quoteChar] ++ ">ok".data

/-- C5, counterexample: the Markdown Normalizer is not idempotent.  On
`<div class="A<span class="b">B">` the first pass yields
`<div class="A<span>B">` and the second pass collapses that to
`<div>`. -/
theorem claim_C5_counterexample :
    normalizeHtml (normalizeHtml nestedExample) ≠ normalizeHtml nestedExample := by
  decide

/-- C5, amended: re-running the normalizer is a no-op whenever its
output is already clean, i.e. whenever no suffix of the normalized text
still matches the pattern `<(div|span) class="[^"]+">`.  (Without that
proviso idempotence fails, see the counterexample.) -/
theorem claim_C5_amended_idempotent_on_clean (l : List Char)
    (h : ∀ s ∈ allTails (normalizeHtml l), tryMatchTag s = none) :
    normalizeHtml (normalizeHtml l) = normalizeHtml l := by
  rw [normalizeHtml]
  exact normF_id_of_no_match (normalizeHtml l).length (normalizeHtml l)
    (Nat.le_refl _) h

/-- C5, witness for the amended claim at `<div class="x">ok`, whose
cleaned form is `<div>ok`. -/
theorem claim_C5_amended_witness :
    normalizeHtml (normalizeHtml cleanExample) = normalizeHtml cleanExample :=
  claim_C5_amended_idempotent_on_clean cleanExample (by decide)

/-- C6, counterexample: the normalizer does not remove every
`class="..."` attribute from div/span tags.  On `<div class="a" id="b">`
(a second attribute follows the class) nothing is rewritten and the
class attribute survives in the output. -/
theorem claim_C6_counterexample :
    normalizeHtml attrExample = attrExample ∧
      containsSub ("class=".data ++ [quoteChar]) (normalizeHtml attrExample)
        = true := by
  decide

/-- C6, amended: the normalizer rewrites exactly the occurrences of the
shape `<div class="v">` / `<span class="v">` in which `class` is the
only attribute and `v` is non-empty and quote-free, replacing them by
`<div>` / `<span>`; text containing no such occurrence — tags with
extra attributes included — is returned unchanged. -/
theorem claim_C6_amended_exact_shape_only :
    (∀ l, (∀ s ∈ allTails l, tryMatchTag s = none) → normalizeHtml l = l) ∧
      (∀ v rest, v ≠ [] → (∀ c ∈ v, c ≠ quoteChar) →
        normalizeHtml (divOpen ++ (v ++ quoteChar :: '>' :: rest))
          = "<div>".data ++ normalizeHtml rest) ∧
      (∀ v rest, v ≠ [] → (∀ c ∈ v, c ≠ quoteChar) →
        normalizeHtml (spanOpen ++ (v ++ quoteChar :: '>' :: rest))
          = "<span>".data ++ normalizeHtml rest) := by
  refine ⟨?_, ?_, ?_⟩
  · intro l h
    rw [normalizeHtml]
    exact normF_id_of_no_match l.length l (Nat.le_refl _) h
  · intro v rest hv hq
    rw [normalizeHtml_step _ "div".data rest (tryMatchTag_div v rest hv hq)]
    rfl
  · intro v rest hv hq
    rw [normalizeHtml_step _ "span".data rest (tryMatchTag_span v rest hv hq)]
    rfl

/-- C6, witness for the amended claim: a no-occurrence input is left
unchanged, and exact-shape div and span tags are rewritten. -/
theorem claim_C6_amended_witness :
    normalizeHtml "<p>a</p>".data = "<p>a</p>".data ∧
      normalizeHtml (divOpen ++ ("x".data ++ quoteChar :: '>' :: "tail".data))
        = "<div>".data ++ normalizeHtml "tail".data ∧
      normalizeHtml (spanOpen ++ ("y".data ++ quoteChar :: '>' :: []))
        = "<span>".data ++ normalizeHtml [] :=
  ⟨claim_C6_amended_exact_shape_only.1 "<p>a</p>".data (by decide),
    claim_C6_amended_exact_shape_only.2.1 "x".data "tail".data (by decide) (by decide),
    claim_C6_amended_exact_shape_only.2.2 "y".data [] (by decide) (by decide)⟩

/-! ### Claims about prose-only and empty rendering -/

/-- C4: whenever the normalized HTML contains no `'```python'` token —
in particular for any body without fenced Python code — the document is
exactly one Title block followed by the prose rendering: one Paragraph
block per non-empty `</p>`-fragment, in source order, each followed by
the fixed `Spacer(1, 12)`. -/
theorem claim_C4_prose_rendering (mdConvert : List Char → List Char)
    (title body : List Char)
    (h : containsSub pythonFence (normalizeHtml (mdConvert body)) = false) :
    create_pdf mdConvert title body =
      Block.title title :: proseBlocks (normalizeHtml (mdConvert body)) := by
  rw [create_pdf, pySplit_single pythonFence _ h]
  congr 1
  rw [List.flatMap_cons, List.flatMap_nil, List.append_nil,
    renderPart_prose _ h, proseBlocks]

/-- A fixed prose conversion result used to witness C4. -/
def proseExample : List Char := "<p>hi</p><p>there</p>".data

/-- C4, witness at the conversion output `<p>hi</p><p>there</p>`. -/
theorem claim_C4_witness :
    containsSub pythonFence (normalizeHtml proseExample) = false ∧
      create_pdf (fun _ => proseExample) "T".data "b".data =
        [Block.title "T".data, Block.para "hi".data, Block.spacer 1 12,
          Block.para "there".data, Block.spacer 1 12] := by
  refine ⟨by decide, ?_⟩
  have h := claim_C4_prose_rendering (fun _ => proseExample) "T".data "b".data
    (by decide)
  rw [h]
  decide

/-- C9: with the empty body (whose Markdown conversion is the empty
string), the document consists of the Title block alone. -/
theorem claim_C9_empty_body_title_only (mdConvert : List Char → List Char)
    (title : List Char) (h : mdConvert [] = []) :
    create_pdf mdConvert title [] = [Block.title title] := by
  rw [create_pdf, h]
  rfl

/-- C9, witness with the identity conversion. -/
theorem claim_C9_witness :
    create_pdf (fun l => l) "T".data [] = [Block.title "T".data] :=
  claim_C9_empty_body_title_only (fun l => l) "T".data rfl
